import Mathlib

/-!
Verification of the table-exclusion decision engine of `dbdump`.

The embedding follows the Go sources:
* `internal/patterns/matcher.go` — `Matcher`, `Matches`, `matchPattern`,
  `FilterTables`, `FilterIncluded`;
* `internal/config` (shown under `internal/database/dumper.go` in this tree) —
  `ExcludeConfig`, `DefaultConfig`, `Config`, `defaultConfigYAML`,
  `LoadDefaults`, `MergeExcludes`, `uniqueStrings`;
* the glob engine `path/filepath.Match` of the Go standard library (unix
  build: separator is the slash character and the backslash is an escape),
  which `matchPattern` calls.

Strings are modelled as lists of Unicode scalar values (`List Char`), the
values a valid-UTF-8 Go string denotes.  Functions whose Go originals are
loops over positions are written with an explicit fuel argument; every top
level wrapper passes a fuel larger than the maximal number of iterations
(each iteration strictly consumes pattern or chunk characters), so the
fuel-exhaustion branches are unreachable and the wrappers compute by `rfl`.
-/

abbrev GoStr := List Char

/-- Separator of `path/filepath` on unix builds. -/
def SEPARATOR : Char := '/'

/-- Embedding of `getEsc` from `path/filepath/match.go`: reads one possibly
backslash-escaped character of a character class; an empty remainder, or a
leading dash or closing bracket, is a bad pattern, and a class element may
never be the last character of a chunk. -/
def getEsc (chunk : GoStr) : Except Unit (Char × GoStr) :=
  match chunk with
  | [] => .error ()
  | c :: rest =>
    if c == '-' || c == ']' then .error ()
    else if c == '\\' then
      match rest with
      | [] => .error ()
      | r :: rest2 => if rest2.isEmpty then .error () else .ok (r, rest2)
    else if rest.isEmpty then .error () else .ok (c, rest)

/-- Embedding of the range-parsing loop inside `matchChunk` (the `[` case of
`path/filepath/match.go`): folds over the `lo-hi` ranges of a character
class, accumulating whether the already-decoded character `r` fell in some
range.  `nrangePos` records `nrange > 0`.  The fuel is always called with
more than the chunk length, so the zero-fuel branch is unreachable. -/
def parseRangesF : Nat → Char → GoStr → Bool → Bool → Except Unit (Bool × GoStr)
  | 0, _, _, _, _ => .error ()
  | Nat.succ fuel, r, chunk, mtch, nrangePos =>
    match chunk with
    | ']' :: rest =>
      if nrangePos then .ok (mtch, rest)
      else .error ()
    | _ =>
      match getEsc chunk with
      | .error _ => .error ()
      | .ok (lo, chunk1) =>
        match chunk1 with
        | '-' :: afterDash =>
          match getEsc afterDash with
          | .error _ => .error ()
          | .ok (hi, chunk2) =>
            parseRangesF fuel r chunk2 (mtch || (decide (lo ≤ r) && decide (r ≤ hi))) true
        | _ =>
          parseRangesF fuel r chunk1 (mtch || (decide (lo ≤ r) && decide (r ≤ lo))) true

/-- Embedding of `matchChunk` from `path/filepath/match.go`.  A chunk is
matched against the head of `s0`; `failed0` is the `failed` flag of the Go
code: when set, parsing continues purely to validate the chunk syntax.
Returns the rest of `s0` on a match, `none` on a well-formed mismatch, and
an error on a bad pattern.  The arms returning `.error ()` under a `failed`
guard with empty input are unreachable: the flag is set whenever `s0` is
empty. -/
def matchChunkF : Nat → GoStr → GoStr → Bool → Except Unit (Option GoStr)
  | _, [], s0, failed0 => if failed0 then .ok none else .ok (some s0)
  | 0, _ :: _, _, _ => .error ()
  | Nat.succ fuel, c :: chunkRest, s0, failed0 =>
    let failed := failed0 || s0.isEmpty
    if c == '[' then
      let r : Char := if failed then Char.ofNat 0 else s0.headD (Char.ofNat 0)
      let s1 : GoStr := if failed then s0 else s0.tail
      let negated : Bool := chunkRest.headD (Char.ofNat 0) == '^'
      let chunk1 : GoStr := if negated then chunkRest.tail else chunkRest
      match parseRangesF (chunk1.length + 1) r chunk1 false false with
      | .error _ => .error ()
      | .ok (mtch, chunk2) => matchChunkF fuel chunk2 s1 (failed || (mtch == negated))
    else if c == '?' then
      if failed then matchChunkF fuel chunkRest s0 failed
      else
        match s0 with
        | [] => .error ()
        | sc :: sRest => matchChunkF fuel chunkRest sRest (sc == SEPARATOR)
    else if c == '\\' then
      match chunkRest with
      | [] => .error ()
      | d :: chunkRest2 =>
        if failed then matchChunkF fuel chunkRest2 s0 failed
        else
          match s0 with
          | [] => .error ()
          | sc :: sRest => matchChunkF fuel chunkRest2 sRest (!(d == sc))
    else
      if failed then matchChunkF fuel chunkRest s0 failed
      else
        match s0 with
        | [] => .error ()
        | sc :: sRest => matchChunkF fuel chunkRest sRest (!(c == sc))

/-- `matchChunk` with its initial state: fresh `failed` flag and sufficient
fuel (one more than the chunk length; every step consumes a chunk
character). -/
def matchChunkRun (chunk s : GoStr) : Except Unit (Option GoStr) :=
  matchChunkF (chunk.length + 1) chunk s false

/-- Leading-star stripping of `scanChunk`: consumes the leading run of `*`
characters of the pattern, reporting whether there was one. -/
def stripStars : GoStr → Bool × GoStr
  | [] => (false, [])
  | c :: rest => if c == '*' then (true, (stripStars rest).2) else (false, c :: rest)

/-- Scanning loop of `scanChunk`: copies characters into the chunk until an
unbracketed `*`; a backslash always carries the following character with it,
`[` opens and `]` closes a bracket range. -/
def scanChunkAux : GoStr → Bool → GoStr × GoStr
  | [], _ => ([], [])
  | c :: rest, inrange =>
    if c == '\\' then
      match rest with
      | [] => ([c], [])
      | d :: rest2 =>
        let p := scanChunkAux rest2 inrange
        (c :: d :: p.1, p.2)
    else if c == '[' then
      let p := scanChunkAux rest true
      (c :: p.1, p.2)
    else if c == ']' then
      let p := scanChunkAux rest false
      (c :: p.1, p.2)
    else if c == '*' then
      if inrange then
        let p := scanChunkAux rest inrange
        (c :: p.1, p.2)
      else ([], c :: rest)
    else
      let p := scanChunkAux rest inrange
      (c :: p.1, p.2)

/-- Embedding of `scanChunk` from `path/filepath/match.go`: splits the
pattern into a leading-star flag, the next chunk, and the rest. -/
def scanChunk (pattern : GoStr) : Bool × GoStr × GoStr :=
  let sp := stripStars pattern
  let cr := scanChunkAux sp.2 false
  (sp.1, cr.1, cr.2)

/-- Embedding of the star-retry loop of `Match`: tries to match the chunk at
every strictly later position of the name, stopping at a separator.
`restEmpty` records that the current chunk is the last one, in which case a
match that does not exhaust the name is skipped. -/
def matchStar (chunk : GoStr) (restEmpty : Bool) : GoStr → Except Unit (Option GoStr)
  | [] => .ok none
  | c :: nameRest =>
    if c == SEPARATOR then .ok none
    else
      match matchChunkRun chunk nameRest with
      | .error _ => .error ()
      | .ok (some t) =>
        if restEmpty && !t.isEmpty then matchStar chunk restEmpty nameRest
        else .ok (some t)
      | .ok none => matchStar chunk restEmpty nameRest

/-- Embedding of the final validity sweep of `Match`: before returning a
plain mismatch, every remaining chunk is parsed against the empty string so
that a malformed tail still reports a bad pattern.  Returns `true` when the
remaining pattern is well-formed. -/
def validRestF : Nat → GoStr → Bool
  | _, [] => true
  | 0, _ :: _ => false
  | Nat.succ fuel, c :: rest0 =>
    let s := scanChunk (c :: rest0)
    match matchChunkRun s.2.1 [] with
    | .error _ => false
    | .ok _ => validRestF fuel s.2.2

/-- `validRestF` with sufficient fuel: each sweep step strictly shortens the
pattern. -/
def validRest (pattern : GoStr) : Bool := validRestF (pattern.length + 1) pattern

/-- Embedding of `path/filepath.Match` (unix build).  `.error ()` is Go's
`ErrBadPattern`.  The fuel only bounds the chunk-consuming outer loop; the
rest of the pattern is strictly shorter at every recursive call, so the
top-level fuel of `goMatch` is never exhausted. -/
def goMatchF : Nat → GoStr → GoStr → Except Unit Bool
  | _, [], name => .ok name.isEmpty
  | 0, _ :: _, _ => .error ()
  | Nat.succ fuel, c :: rest0, name =>
    let s := scanChunk (c :: rest0)
    let star := s.1
    let chunk := s.2.1
    let rest := s.2.2
    if star && chunk.isEmpty then .ok (!(name.contains SEPARATOR))
    else
      let afterFail : Except Unit Bool :=
        if star then
          match matchStar chunk rest.isEmpty name with
          | .error _ => .error ()
          | .ok (some t) => goMatchF fuel rest t
          | .ok none => if validRest rest then .ok false else .error ()
        else if validRest rest then .ok false else .error ()
      match matchChunkRun chunk name with
      | .error _ => .error ()
      | .ok (some t) => if t.isEmpty || !rest.isEmpty then goMatchF fuel rest t else afterFail
      | .ok none => afterFail

/-- `filepath.Match pattern name` with its sufficient fuel. -/
def goMatch (pattern name : GoStr) : Except Unit Bool :=
  goMatchF (pattern.length + 1) pattern name

/-- Embedding of `strings.Trim(pattern, "*")`: removes every leading and
trailing `*`. -/
def trimStar (l : GoStr) : GoStr :=
  ((l.dropWhile (· == '*')).reverse.dropWhile (· == '*')).reverse

/-- Embedding of `strings.Contains s sub`: `sub` occurs contiguously in `s`. -/
def containsSub (s sub : GoStr) : Bool :=
  match s with
  | [] => sub.isEmpty
  | c :: rest => sub.isPrefixOf (c :: rest) || containsSub rest sub

/-- Embedding of `matchPattern` from `internal/patterns/matcher.go`: glob
match via `filepath.Match`; when the glob engine reports a bad pattern, fall
back to a substring-containment test of the star-trimmed pattern. -/
def matchPattern (pattern str : GoStr) : Bool :=
  match goMatch pattern str with
  | .ok matched => matched
  | .error _ => containsSub str (trimStar pattern)

example : matchPattern "telescope_*".toList "telescope_entries".toList = true := by decide
example : matchPattern "telescope_*".toList "telescope".toList = false := by decide
example : matchPattern "_cache".toList "session_cache".toList = false := by decide
example : matchPattern "cache".toList "cache_locks".toList = false := by decide
example : matchPattern "a?c".toList "abc".toList = true := by decide
example : matchPattern "[a]".toList "a".toList = true := by decide
example : matchPattern "[".toList "x[y".toList = true := by decide
example : goMatch "[".toList "x[y".toList = .error () := rfl
example : matchPattern "*".toList "anything".toList = true := by decide

/-- Embedding of `ExcludeConfig` from `internal/config`: the pair of an
exact-name list and a glob-pattern list. -/
structure ExcludeConfig where
  Exact : List GoStr
  Patterns : List GoStr
deriving DecidableEq

/-- Embedding of `DefaultConfig` from `internal/config`: the wrapper the
embedded defaults document unmarshals into. -/
structure DefaultConfig where
  DefaultExcludes : ExcludeConfig
deriving DecidableEq

/-- Embedding of `Config` from `internal/config`: a named project or global
configuration. -/
structure Config where
  Name : GoStr
  Exclude : ExcludeConfig
deriving DecidableEq

/-- Embedding of `Matcher` from `internal/patterns/matcher.go`.  The Go
field `exactMatches` is a `map[string]bool` holding `true` for every entry
of `ExcludeConfig.Exact`; membership in that map is membership in the list,
which is how it is modelled here. -/
structure Matcher where
  exactMatches : List GoStr
  patterns : List GoStr

/-- Embedding of `NewMatcher`. -/
def NewMatcher (excludes : ExcludeConfig) : Matcher :=
  { exactMatches := excludes.Exact, patterns := excludes.Patterns }

/-- Embedding of `Matcher.Matches`: exact-map lookup first, then the pattern
list, existentially. -/
def Matches (m : Matcher) (tableName : GoStr) : Bool :=
  if tableName ∈ m.exactMatches then true
  else m.patterns.any (fun pattern => matchPattern pattern tableName)

/-- Embedding of `Matcher.FilterTables`: the loop appending every table that
`Matches` accepts, in input order. -/
def FilterTables (m : Matcher) (tables : List GoStr) : List GoStr :=
  tables.filter (fun table => Matches m table)

/-- Embedding of `Matcher.FilterIncluded`: the loop appending every table
that `Matches` rejects, in input order. -/
def FilterIncluded (m : Matcher) (tables : List GoStr) : List GoStr :=
  tables.filter (fun table => !Matches m table)

/-- Embedding of `uniqueStrings` from `internal/config`: drops every element
already recorded in the `seen` set, keeping first occurrences in order.  The
Go `seen` map is modelled by the list of recorded keys. -/
def uniqueStringsAux (seen : List GoStr) : List GoStr → List GoStr
  | [] => []
  | s :: rest =>
    if s ∈ seen then uniqueStringsAux seen rest
    else s :: uniqueStringsAux (s :: seen) rest

/-- `uniqueStrings` entry point: empty `seen` set. -/
def uniqueStrings (input : List GoStr) : List GoStr := uniqueStringsAux [] input

/-- Embedding of `MergeExcludes` from `internal/config`: start from empty
lists, append the defaults' lists when present, append the project's lists
when present, then de-duplicate both. -/
def MergeExcludes (defaults : Option DefaultConfig) (project : Option Config) : ExcludeConfig :=
  let e0 : List GoStr := []
  let p0 : List GoStr := []
  let e1 := match defaults with
    | some d => e0 ++ d.DefaultExcludes.Exact
    | none => e0
  let p1 := match defaults with
    | some d => p0 ++ d.DefaultExcludes.Patterns
    | none => p0
  let e2 := match project with
    | some pr => e1 ++ pr.Exclude.Exact
    | none => e1
  let p2 := match project with
    | some pr => p1 ++ pr.Exclude.Patterns
    | none => p1
  { Exact := uniqueStrings e2, Patterns := uniqueStrings p2 }

/-- Lines of the Go constant `defaultConfigYAML` from `internal/config`,
transcribed line by line (the Go constant is a single raw string literal;
splitting it at its newlines is the only preprocessing). -/
def defaultConfigYAMLLines : List GoStr :=
  [ "default_excludes:".toList
  , "  exact:".toList
  , "    - audits".toList
  , "    - sessions".toList
  , "    - cache".toList
  , "    - cache_locks".toList
  , "    - failed_jobs".toList
  , "    - telescope_entries".toList
  , "    - telescope_entries_tags".toList
  , "    - telescope_monitoring".toList
  , "    - pulse_entries".toList
  , "    - pulse_aggregates".toList
  , "  patterns:".toList
  , "    - \"telescope_*\"".toList
  , "    - \"pulse_*\"".toList
  , "    - \"_cache\"".toList
  , "".toList ]

/-- Space trimming for the defaults parser. -/
def trimSpaces (l : GoStr) : GoStr :=
  ((l.dropWhile (· == ' ')).reverse.dropWhile (· == ' ')).reverse

/-- Strips one pair of surrounding double quotes, as the YAML scalars of the
defaults document use them. -/
def stripQuotes (l : GoStr) : GoStr :=
  match l with
  | '"' :: rest =>
    if rest ≠ [] ∧ rest.getLast? = some '"' then rest.dropLast else l
  | _ => l

/-- Recognises a YAML sequence item line `- value` of the defaults document
and yields its scalar value. -/
def parseItem (line : GoStr) : Option GoStr :=
  let t := trimSpaces line
  match t with
  | '-' :: ' ' :: rest => some (stripQuotes (trimSpaces rest))
  | _ => none

/-- Section-tracking loop of the defaults parser: state 1 inside `exact:`,
state 2 inside `patterns:`, 0 outside both; items are collected in reverse
and put back in order at the end. -/
def parseDefaultsLoop : List GoStr → Nat → List GoStr → List GoStr → List GoStr × List GoStr
  | [], _, es, ps => (es.reverse, ps.reverse)
  | line :: rest, st, es, ps =>
    let t := trimSpaces line
    if t = "exact:".toList then parseDefaultsLoop rest 1 es ps
    else if t = "patterns:".toList then parseDefaultsLoop rest 2 es ps
    else
      match parseItem line with
      | some v =>
        if st = 1 then parseDefaultsLoop rest st (v :: es) ps
        else if st = 2 then parseDefaultsLoop rest st es (v :: ps)
        else parseDefaultsLoop rest st es ps
      | none => parseDefaultsLoop rest st es ps

/-- Modelled from the spec: `LoadDefaults` from `internal/config` unmarshals
the embedded `defaultConfigYAML` constant with the third-party
`gopkg.in/yaml.v3` library, whose code is not part of this repository; the
unmarshalling of the fixed two-list document shape used by the constant is
modelled by the parser above (top-level `default_excludes:` key, an `exact:`
list and a `patterns:` list of optionally quoted scalars), and a parse
failure maps to the error return. -/
def LoadDefaults : Except GoStr DefaultConfig :=
  match defaultConfigYAMLLines with
  | first :: _ =>
    if first = "default_excludes:".toList then
      let parsed := parseDefaultsLoop defaultConfigYAMLLines 0 [] []
      .ok ⟨⟨parsed.1, parsed.2⟩⟩
    else .error "failed to parse defaults".toList
  | [] => .error "failed to parse defaults".toList

/-- Modelled from the spec: `buildExcludeConfig` lives in the repository's
`main` package, which is absent from the source tree; its body is shown
verbatim in the README ("Configuration merging" walkthrough).  It starts
from the embedded defaults, merges the global configuration (when present)
with `MergeExcludes(defaults, global)`, merges the project configuration
(when present) with `MergeExcludes` over a temporary `DefaultConfig` holding
the accumulated result, then appends the CLI-supplied exact names and
patterns without de-duplication.  Load failures of the collaborators are out
of scope; the defaults load failure maps to `none`. -/
def buildExcludeConfig (globalConfig projectConfig : Option Config)
    (excludeTables excludePattern : List GoStr) : Option ExcludeConfig :=
  match LoadDefaults with
  | .error _ => none
  | .ok defaults =>
    let ec0 := defaults.DefaultExcludes
    let ec1 := match globalConfig with
      | none => ec0
      | some g => MergeExcludes (some defaults) (some g)
    let ec2 := match projectConfig with
      | none => ec1
      | some p => MergeExcludes (some ⟨ec1⟩) (some p)
    some ⟨ec2.Exact ++ excludeTables, ec2.Patterns ++ excludePattern⟩

/-- One fold step of merging a further layer into an accumulated effective
configuration, exactly as `buildExcludeConfig` does for the project layer: a
temporary `DefaultConfig` wraps the accumulator and `MergeExcludes` is
applied. -/
def mergeStep (acc layer : ExcludeConfig) : ExcludeConfig :=
  MergeExcludes (some ⟨acc⟩) (some ⟨[], layer⟩)

/-- Folding an ordered sequence of configuration layers into one effective
configuration through `mergeStep`, the ConfigMerger of the specification as
realised by the repeated `MergeExcludes` calls of `buildExcludeConfig`. -/
def mergeLayerList (layers : List ExcludeConfig) : ExcludeConfig :=
  layers.foldl mergeStep ⟨[], []⟩

example : LoadDefaults = .ok ⟨⟨["audits".toList, "sessions".toList, "cache".toList,
    "cache_locks".toList, "failed_jobs".toList, "telescope_entries".toList,
    "telescope_entries_tags".toList, "telescope_monitoring".toList,
    "pulse_entries".toList, "pulse_aggregates".toList],
    ["telescope_*".toList, "pulse_*".toList, "_cache".toList]⟩⟩ := rfl

/-- Order-swapped variant of `Matches` written from the claim's wording (the
pattern check attempted before the exact-set lookup), for comparison with
the source's exact-first order. -/
def MatchesPatternsFirst (m : Matcher) (tableName : GoStr) : Bool :=
  if m.patterns.any (fun pattern => matchPattern pattern tableName) then true
  else decide (tableName ∈ m.exactMatches)

/-- The value `LoadDefaults` evaluates to (checked below by `rfl`): the
exact names and the patterns of the embedded defaults document, in document
order. -/
def defaultsValue : DefaultConfig :=
  ⟨⟨["audits".toList, "sessions".toList, "cache".toList, "cache_locks".toList,
     "failed_jobs".toList, "telescope_entries".toList, "telescope_entries_tags".toList,
     "telescope_monitoring".toList, "pulse_entries".toList, "pulse_aggregates".toList],
    ["telescope_*".toList, "pulse_*".toList, "_cache".toList]⟩⟩

/-- Concatenation of the exact-name lists of the file-backed layers in merge
order: defaults, then global, then project. -/
def layerExacts (globalConfig projectConfig : Option Config) : List GoStr :=
  defaultsValue.DefaultExcludes.Exact ++
    (match globalConfig with | some g => g.Exclude.Exact | none => []) ++
    (match projectConfig with | some p => p.Exclude.Exact | none => [])

/-- Concatenation of the pattern lists of the file-backed layers in merge
order: defaults, then global, then project. -/
def layerPatterns (globalConfig projectConfig : Option Config) : List GoStr :=
  defaultsValue.DefaultExcludes.Patterns ++
    (match globalConfig with | some g => g.Exclude.Patterns | none => []) ++
    (match projectConfig with | some p => p.Exclude.Patterns | none => [])

/-- A pattern containing neither wildcard (`*`, `?`) nor a character-class
opener nor an escape: for these the glob engine degenerates to literal
comparison. -/
def isLiteral (l : GoStr) : Bool :=
  l.all fun c => decide (c ≠ '*' ∧ c ≠ '?' ∧ c ≠ '[' ∧ c ≠ '\\')

/-! ### Properties of `uniqueStrings` -/

theorem mem_uniqueStringsAux {x : GoStr} :
    ∀ {l seen : List GoStr}, x ∈ uniqueStringsAux seen l ↔ x ∈ l ∧ x ∉ seen := by
  intro l
  induction l with
  | nil => intro seen; simp [uniqueStringsAux]
  | cons s rest ih =>
    intro seen
    by_cases hs : s ∈ seen
    · rw [uniqueStringsAux, if_pos hs, ih]
      constructor
      · rintro ⟨hx, hns⟩
        exact ⟨List.mem_cons_of_mem _ hx, hns⟩
      · rintro ⟨hx, hns⟩
        rcases List.mem_cons.mp hx with h | h
        · exact absurd (h ▸ hs) hns
        · exact ⟨h, hns⟩
    · rw [uniqueStringsAux, if_neg hs]
      constructor
      · intro hx
        rcases List.mem_cons.mp hx with h | h
        · exact ⟨h ▸ List.mem_cons_self _ _, h ▸ hs⟩
        · rcases ih.mp h with ⟨h1, h2⟩
          exact ⟨List.mem_cons_of_mem _ h1, fun hc => h2 (List.mem_cons_of_mem _ hc)⟩
      · rintro ⟨hx, hns⟩
        rcases List.mem_cons.mp hx with h | h
        · exact h ▸ List.mem_cons_self _ _
        · by_cases hxs : x = s
          · exact hxs ▸ List.mem_cons_self _ _
          · refine List.mem_cons_of_mem _ (ih.mpr ⟨h, fun hc => ?_⟩)
            rcases List.mem_cons.mp hc with h2 | h2
            · exact hxs h2
            · exact hns h2

theorem nodup_uniqueStringsAux : ∀ (l seen : List GoStr), (uniqueStringsAux seen l).Nodup := by
  intro l
  induction l with
  | nil => intro seen; simp [uniqueStringsAux]
  | cons s rest ih =>
    intro seen
    by_cases hs : s ∈ seen
    · rw [uniqueStringsAux, if_pos hs]; exact ih seen
    · rw [uniqueStringsAux, if_neg hs]
      refine List.nodup_cons.mpr ⟨fun hmem => ?_, ih _⟩
      exact (mem_uniqueStringsAux.mp hmem).2 (List.mem_cons_self _ _)

theorem uniqueStringsAux_sublist :
    ∀ (l seen : List GoStr), List.Sublist (uniqueStringsAux seen l) l := by
  intro l
  induction l with
  | nil => intro seen; simp [uniqueStringsAux]
  | cons s rest ih =>
    intro seen
    by_cases hs : s ∈ seen
    · rw [uniqueStringsAux, if_pos hs]
      exact (ih seen).trans (List.sublist_cons_self s rest)
    · rw [uniqueStringsAux, if_neg hs]
      exact (ih (s :: seen)).cons₂ s

theorem uniqueStringsAux_eq_nil :
    ∀ {l seen : List GoStr}, (∀ x ∈ l, x ∈ seen) → uniqueStringsAux seen l = [] := by
  intro l
  induction l with
  | nil => intro seen _; rfl
  | cons s rest ih =>
    intro seen h
    rw [uniqueStringsAux, if_pos (h s (List.mem_cons_self _ _))]
    exact ih fun x hx => h x (List.mem_cons_of_mem _ hx)

theorem uniqueStringsAux_append_absorb :
    ∀ {l1 seen l2 : List GoStr}, (∀ x ∈ l2, x ∈ seen ∨ x ∈ l1) →
      uniqueStringsAux seen (l1 ++ l2) = uniqueStringsAux seen l1 := by
  intro l1
  induction l1 with
  | nil =>
    intro seen l2 h
    rw [List.nil_append]
    exact uniqueStringsAux_eq_nil fun x hx => (h x hx).resolve_right (by simp)
  | cons s rest ih =>
    intro seen l2 h
    by_cases hs : s ∈ seen
    · rw [List.cons_append, uniqueStringsAux, if_pos hs, uniqueStringsAux, if_pos hs]
      refine ih fun x hx => ?_
      rcases h x hx with h1 | h1
      · exact Or.inl h1
      · rcases List.mem_cons.mp h1 with h2 | h2
        · exact Or.inl (h2 ▸ hs)
        · exact Or.inr h2
    · rw [List.cons_append, uniqueStringsAux, if_neg hs, uniqueStringsAux, if_neg hs]
      congr 1
      refine ih fun x hx => ?_
      rcases h x hx with h1 | h1
      · exact Or.inl (List.mem_cons_of_mem _ h1)
      · rcases List.mem_cons.mp h1 with h2 | h2
        · exact Or.inl (h2 ▸ List.mem_cons_self _ _)
        · exact Or.inr h2

theorem uniqueStringsAux_of_nodup :
    ∀ {l seen : List GoStr}, l.Nodup → (∀ x ∈ l, x ∉ seen) → uniqueStringsAux seen l = l := by
  intro l
  induction l with
  | nil => intro seen _ _; rfl
  | cons s rest ih =>
    intro seen hnd hns
    rw [uniqueStringsAux, if_neg (hns s (List.mem_cons_self _ _))]
    congr 1
    refine ih (List.nodup_cons.mp hnd).2 fun x hx hmem => ?_
    rcases List.mem_cons.mp hmem with h | h
    · exact (List.nodup_cons.mp hnd).1 (h ▸ hx)
    · exact hns x (List.mem_cons_of_mem _ hx) h

theorem uniqueStringsAux_left_absorbing :
    ∀ {l : List GoStr} (seen r : List GoStr),
      uniqueStringsAux seen (uniqueStringsAux seen l ++ r) = uniqueStringsAux seen (l ++ r) := by
  intro l
  induction l with
  | nil => intro seen r; rfl
  | cons s rest ih =>
    intro seen r
    by_cases hs : s ∈ seen
    · rw [uniqueStringsAux, if_pos hs, List.cons_append, uniqueStringsAux, if_pos hs, ih]
    · rw [uniqueStringsAux, if_neg hs, List.cons_append, List.cons_append,
        uniqueStringsAux, if_neg hs, uniqueStringsAux, if_neg hs, ih]

theorem mem_uniqueStrings {x : GoStr} {l : List GoStr} : x ∈ uniqueStrings l ↔ x ∈ l := by
  rw [uniqueStrings, mem_uniqueStringsAux]
  simp

theorem nodup_uniqueStrings (l : List GoStr) : (uniqueStrings l).Nodup :=
  nodup_uniqueStringsAux l []

theorem uniqueStrings_sublist (l : List GoStr) : List.Sublist (uniqueStrings l) l :=
  uniqueStringsAux_sublist l []

theorem uniqueStrings_append_self {l : List GoStr} (h : l.Nodup) :
    uniqueStrings (l ++ l) = l := by
  rw [uniqueStrings, uniqueStringsAux_append_absorb fun x hx => Or.inr hx]
  exact uniqueStringsAux_of_nodup h (by simp)

theorem uniqueStrings_append_uniqueStrings (l r : List GoStr) :
    uniqueStrings (uniqueStrings l ++ r) = uniqueStrings (l ++ r) :=
  uniqueStringsAux_left_absorbing [] r

/-! ### Properties of `Matches` -/

theorem matches_iff {m : Matcher} {n : GoStr} :
    Matches m n = true ↔ n ∈ m.exactMatches ∨ ∃ p ∈ m.patterns, matchPattern p n = true := by
  by_cases hn : n ∈ m.exactMatches
  · simp [Matches, hn]
  · simp [Matches, hn, List.any_eq_true]

theorem matches_ext {e1 e2 : ExcludeConfig}
    (hE : ∀ x, x ∈ e1.Exact ↔ x ∈ e2.Exact)
    (hP : ∀ x, x ∈ e1.Patterns ↔ x ∈ e2.Patterns) (n : GoStr) :
    Matches (NewMatcher e1) n = Matches (NewMatcher e2) n := by
  have htrans : ∀ {a b : ExcludeConfig},
      (∀ x, x ∈ a.Exact ↔ x ∈ b.Exact) → (∀ x, x ∈ a.Patterns ↔ x ∈ b.Patterns) →
      Matches (NewMatcher a) n = true → Matches (NewMatcher b) n = true := by
    intro a b ha hb h
    rcases matches_iff.mp h with h1 | ⟨p, hp, hm⟩
    · exact matches_iff.mpr (Or.inl ((ha n).mp h1))
    · exact matches_iff.mpr (Or.inr ⟨p, (hb p).mp hp, hm⟩)
  cases h1 : Matches (NewMatcher e1) n with
  | true => exact (htrans hE hP h1).symm
  | false =>
    cases h2 : Matches (NewMatcher e2) n with
    | false => rfl
    | true =>
      have := htrans (fun x => (hE x).symm) (fun x => (hP x).symm) h2
      rw [h1] at this
      exact absurd this (by simp)

/-! ### Properties of the merge -/

theorem loadDefaults_eq : LoadDefaults = .ok defaultsValue := rfl

theorem mergeExcludes_self {c : ExcludeConfig} (hE : c.Exact.Nodup) (hP : c.Patterns.Nodup) :
    MergeExcludes (some ⟨c⟩) (some ⟨[], c⟩) = c := by
  obtain ⟨ce, cp⟩ := c
  simp only [MergeExcludes, List.nil_append]
  rw [uniqueStrings_append_self hE, uniqueStrings_append_self hP]

theorem mergeStep_exact_mem (acc layer : ExcludeConfig) (x : GoStr) :
    x ∈ (mergeStep acc layer).Exact ↔ x ∈ acc.Exact ∨ x ∈ layer.Exact := by
  simp [mergeStep, MergeExcludes, mem_uniqueStrings]

theorem mergeStep_patterns_mem (acc layer : ExcludeConfig) (x : GoStr) :
    x ∈ (mergeStep acc layer).Patterns ↔ x ∈ acc.Patterns ∨ x ∈ layer.Patterns := by
  simp [mergeStep, MergeExcludes, mem_uniqueStrings]

theorem foldl_mergeStep_exact_mem (x : GoStr) :
    ∀ (layers : List ExcludeConfig) (acc : ExcludeConfig),
      (x ∈ (List.foldl mergeStep acc layers).Exact ↔
        x ∈ acc.Exact ∨ ∃ l ∈ layers, x ∈ l.Exact) := by
  intro layers
  induction layers with
  | nil => intro acc; simp
  | cons l rest ih =>
    intro acc
    rw [List.foldl_cons, ih, mergeStep_exact_mem]
    simp only [List.mem_cons]
    aesop

theorem foldl_mergeStep_patterns_mem (x : GoStr) :
    ∀ (layers : List ExcludeConfig) (acc : ExcludeConfig),
      (x ∈ (List.foldl mergeStep acc layers).Patterns ↔
        x ∈ acc.Patterns ∨ ∃ l ∈ layers, x ∈ l.Patterns) := by
  intro layers
  induction layers with
  | nil => intro acc; simp
  | cons l rest ih =>
    intro acc
    rw [List.foldl_cons, ih, mergeStep_patterns_mem]
    simp only [List.mem_cons]
    aesop

/-! ### Claim theorems on classification and merge -/

/-- C1: for every exclude configuration and input list, `FilterTables` and
`FilterIncluded` partition the input: both outputs are sublists of the input
(so each preserves the input's relative order), no name is in both outputs,
and their concatenation is a permutation of the input — the multiset union
of the outputs is the input, so every occurrence of a name lands in exactly
one output and nothing is added, dropped, or duplicated. -/
theorem c1_classification_partition (m : Matcher) (tables : List GoStr) :
    List.Sublist (FilterTables m tables) tables
    ∧ List.Sublist (FilterIncluded m tables) tables
    ∧ (∀ x, x ∈ FilterTables m tables → x ∉ FilterIncluded m tables)
    ∧ List.Perm (FilterTables m tables ++ FilterIncluded m tables) tables := by
  refine ⟨List.filter_sublist _, List.filter_sublist _, ?_, ?_⟩
  · intro x hx hy
    have h1 := (List.mem_filter.mp hx).2
    have h2 := (List.mem_filter.mp hy).2
    rw [h1] at h2
    exact absurd h2 (by simp)
  · exact List.filter_append_perm _ tables

theorem c1_witness :
    ("audits".toList ∉ FilterIncluded ⟨["audits".toList], []⟩
        ["users".toList, "audits".toList])
    ∧ List.Perm
        (FilterTables ⟨["audits".toList], []⟩ ["users".toList, "audits".toList]
          ++ FilterIncluded ⟨["audits".toList], []⟩ ["users".toList, "audits".toList])
        ["users".toList, "audits".toList] :=
  ⟨(c1_classification_partition ⟨["audits".toList], []⟩
      ["users".toList, "audits".toList]).2.2.1 _ (by decide),
   (c1_classification_partition ⟨["audits".toList], []⟩
      ["users".toList, "audits".toList]).2.2.2⟩

/-- C2 (claim violated by the code): for the syntactically invalid glob
pattern consisting of a lone opening bracket — the glob engine rejects it —
matching against the name `x[y` does not yield false and no configuration
load rejects it; instead `matchPattern` silently answers true because the
star-trimmed pattern occurs as a substring of the name, the scope-widening
the claim rules out. -/
theorem c2_invalid_pattern_scope_widens :
    goMatch "[".toList "x[y".toList = .error ()
    ∧ matchPattern "[".toList "x[y".toList = true
    ∧ containsSub "x[y".toList (trimStar "[".toList) = true :=
  ⟨rfl, by decide, by decide⟩

/-- C3 counterexample: with no global and no project layer and the CLI
contributing the exact name `audits` (already among the defaults), the
effective configuration's exact list contains a byte-identical duplicate,
refuting the claimed no-duplicates invariant. -/
theorem c3_counterexample :
    (buildExcludeConfig none none ["audits".toList] []).map
        (fun eff => decide eff.Exact.Nodup) = some false := rfl

/-- C3 amended: the merged file-backed part (defaults, global, project) is
the first-seen-order de-duplication of the concatenated layer lists and is
duplicate-free; the CLI names and patterns are then appended verbatim,
without de-duplication. -/
theorem c3_amended (g p : Option Config) (cliExact cliPatterns : List GoStr) :
    buildExcludeConfig g p cliExact cliPatterns
      = some ⟨uniqueStrings (layerExacts g p) ++ cliExact,
              uniqueStrings (layerPatterns g p) ++ cliPatterns⟩
    ∧ (uniqueStrings (layerExacts g p)).Nodup
    ∧ (uniqueStrings (layerPatterns g p)).Nodup := by
  refine ⟨?_, nodup_uniqueStrings _, nodup_uniqueStrings _⟩
  cases g with
  | none =>
    cases p with
    | none => rfl
    | some pc =>
      simp only [buildExcludeConfig, loadDefaults_eq, MergeExcludes, layerExacts,
        layerPatterns, List.nil_append, List.append_nil]
  | some gc =>
    cases p with
    | none =>
      simp only [buildExcludeConfig, loadDefaults_eq, MergeExcludes, layerExacts,
        layerPatterns, List.nil_append, List.append_nil]
    | some pc =>
      simp only [buildExcludeConfig, loadDefaults_eq, MergeExcludes, layerExacts,
        layerPatterns, List.nil_append, List.append_nil]
      rw [uniqueStrings_append_uniqueStrings, uniqueStrings_append_uniqueStrings]

/-- C4: `Matches` answers true exactly when the name is a member of the
exact set or some pattern of the list glob-matches it; exact membership
forces a positive answer whatever the pattern list holds, and swapping the
order of the two checks never changes the answer. -/
theorem c4_matches_contract (m : Matcher) (n : GoStr) :
    (Matches m n = true ↔ n ∈ m.exactMatches ∨ ∃ p ∈ m.patterns, matchPattern p n = true)
    ∧ (n ∈ m.exactMatches → Matches m n = true)
    ∧ Matches m n = MatchesPatternsFirst m n := by
  refine ⟨matches_iff, fun h => matches_iff.mpr (Or.inl h), ?_⟩
  by_cases hm : n ∈ m.exactMatches <;>
    cases hany : m.patterns.any (fun pattern => matchPattern pattern n) <;>
      simp [Matches, MatchesPatternsFirst, hm, hany]

theorem c4_witness :
    Matches ⟨["audits".toList], ["zz*".toList]⟩ "audits".toList = true :=
  (c4_matches_contract ⟨["audits".toList], ["zz*".toList]⟩ "audits".toList).2.1 (by decide)

/-- C5: merging any two permutations of the same sequence of configuration
layers yields effective configurations that classify every table name
identically, even though the stored de-duplicated orders may differ. -/
theorem c5_merge_order_independent (ls1 ls2 : List ExcludeConfig)
    (hperm : List.Perm ls1 ls2) (n : GoStr) :
    Matches (NewMatcher (mergeLayerList ls1)) n
      = Matches (NewMatcher (mergeLayerList ls2)) n := by
  apply matches_ext
  · intro x
    rw [mergeLayerList, mergeLayerList, foldl_mergeStep_exact_mem, foldl_mergeStep_exact_mem]
    constructor
    · rintro (h | ⟨l, hl, hx⟩)
      · exact Or.inl h
      · exact Or.inr ⟨l, hperm.mem_iff.mp hl, hx⟩
    · rintro (h | ⟨l, hl, hx⟩)
      · exact Or.inl h
      · exact Or.inr ⟨l, hperm.mem_iff.mpr hl, hx⟩
  · intro x
    rw [mergeLayerList, mergeLayerList, foldl_mergeStep_patterns_mem,
      foldl_mergeStep_patterns_mem]
    constructor
    · rintro (h | ⟨l, hl, hx⟩)
      · exact Or.inl h
      · exact Or.inr ⟨l, hperm.mem_iff.mp hl, hx⟩
    · rintro (h | ⟨l, hl, hx⟩)
      · exact Or.inl h
      · exact Or.inr ⟨l, hperm.mem_iff.mpr hl, hx⟩

theorem c5_witness :
    Matches (NewMatcher (mergeLayerList [⟨["a".toList], []⟩, ⟨[], ["b*".toList]⟩]))
        "ba".toList
      = Matches (NewMatcher (mergeLayerList [⟨[], ["b*".toList]⟩, ⟨["a".toList], []⟩]))
        "ba".toList :=
  c5_merge_order_independent _ _
    (List.Perm.swap (⟨[], ["b*".toList]⟩ : ExcludeConfig) ⟨["a".toList], []⟩ []) _

/-- C6: merging an already-merged configuration with itself again returns
the same configuration, with identical exact and pattern lists and no
growth. -/
theorem c6_merge_idempotent (d : Option DefaultConfig) (p : Option Config) :
    MergeExcludes (some ⟨MergeExcludes d p⟩) (some ⟨[], MergeExcludes d p⟩)
      = MergeExcludes d p :=
  mergeExcludes_self (nodup_uniqueStrings _) (nodup_uniqueStrings _)

/-- C8: the empty effective configuration excludes nothing — every input
list is returned whole as included with an empty excluded list — and the
empty input list yields two empty outputs under every configuration. -/
theorem c8_empty_cases (m : Matcher) (tables : List GoStr) :
    FilterTables (NewMatcher ⟨[], []⟩) tables = []
    ∧ FilterIncluded (NewMatcher ⟨[], []⟩) tables = tables
    ∧ FilterTables m [] = [] ∧ FilterIncluded m [] = [] := by
  have hfalse : ∀ t, Matches (NewMatcher ⟨[], []⟩) t = false := by
    intro t; simp [Matches, NewMatcher]
  refine ⟨?_, ?_, rfl, rfl⟩
  · rw [FilterTables, List.filter_eq_nil_iff]
    intro a _
    simp [hfalse a]
  · rw [FilterIncluded, List.filter_eq_self]
    intro a _
    simp [hfalse a]

/-- C10: loading the embedded defaults never fails and yields exactly the
ten exact names and the three patterns of the embedded document, in
document order. -/
theorem c10_load_defaults :
    LoadDefaults = Except.ok
      ⟨⟨["audits".toList, "sessions".toList, "cache".toList, "cache_locks".toList,
         "failed_jobs".toList, "telescope_entries".toList, "telescope_entries_tags".toList,
         "telescope_monitoring".toList, "pulse_entries".toList, "pulse_aggregates".toList],
        ["telescope_*".toList, "pulse_*".toList, "_cache".toList]⟩⟩ := rfl

/-! ### Wildcard-free patterns degenerate to literal comparison -/

theorem isLiteral_cons {c : Char} {rest : GoStr} (h : isLiteral (c :: rest) = true) :
    (c ≠ '*' ∧ c ≠ '?' ∧ c ≠ '[' ∧ c ≠ '\\') ∧ isLiteral rest = true := by
  rw [isLiteral, List.all_cons] at h
  simp only [Bool.and_eq_true, decide_eq_true_eq] at h
  exact ⟨h.1, by rw [isLiteral]; exact h.2⟩

theorem scanChunkAux_literal :
    ∀ {l : GoStr} (inr : Bool), isLiteral l = true → scanChunkAux l inr = (l, []) := by
  intro l
  induction l with
  | nil => intro inr _; rfl
  | cons c rest ih =>
    intro inr h
    obtain ⟨⟨h1, h2, h3, h4⟩, h5⟩ := isLiteral_cons h
    by_cases hc : c = ']'
    · subst hc
      rw [scanChunkAux.eq_def]
      simp [ih false h5]
    · rw [scanChunkAux.eq_def]
      simp [h1, h3, h4, hc, ih inr h5]

theorem stripStars_literal {l : GoStr} (h : isLiteral l = true) : stripStars l = (false, l) := by
  cases l with
  | nil => rfl
  | cons c rest =>
    have h1 := (isLiteral_cons h).1.1
    simp [stripStars, h1]

theorem scanChunk_literal {l : GoStr} (h : isLiteral l = true) :
    scanChunk l = (false, l, []) := by
  simp [scanChunk, stripStars_literal h, scanChunkAux_literal false h]

theorem matchChunkF_literal_failed :
    ∀ {chunk : GoStr} (s : GoStr) (fuel : Nat), isLiteral chunk = true →
      chunk.length < fuel → matchChunkF fuel chunk s true = .ok none := by
  intro chunk
  induction chunk with
  | nil =>
    intro s fuel _ _
    cases fuel <;> rfl
  | cons c rest ih =>
    intro s fuel hlit hfuel
    obtain ⟨⟨h1, h2, h3, h4⟩, h5⟩ := isLiteral_cons hlit
    cases fuel with
    | zero => exact absurd hfuel (by omega)
    | succ f =>
      have hrec := ih s f h5 (by simpa using Nat.lt_of_succ_lt_succ hfuel)
      simp [matchChunkF, h2, h3, h4, hrec]

theorem matchChunkF_literal :
    ∀ {chunk : GoStr} (s : GoStr) (fuel : Nat), isLiteral chunk = true →
      chunk.length < fuel →
      matchChunkF fuel chunk s false =
        (if chunk.isPrefixOf s then .ok (some (s.drop chunk.length)) else .ok none) := by
  intro chunk
  induction chunk with
  | nil =>
    intro s fuel _ _
    cases fuel <;> simp [matchChunkF]
  | cons c rest ih =>
    intro s fuel hlit hfuel
    obtain ⟨⟨h1, h2, h3, h4⟩, h5⟩ := isLiteral_cons hlit
    cases fuel with
    | zero => exact absurd hfuel (by omega)
    | succ f =>
      have hflen : rest.length < f := by simpa using Nat.lt_of_succ_lt_succ hfuel
      cases s with
      | nil =>
        have hrec := matchChunkF_literal_failed [] f h5 hflen
        simp [matchChunkF, h2, h3, h4, hrec]
      | cons sc sRest =>
        by_cases hcs : c = sc
        · subst hcs
          have hrec := ih sRest f h5 hflen
          simp [matchChunkF, h2, h3, h4, hrec, List.isPrefixOf_cons₂]
        · have hbe : (c == sc) = false := by simp [hcs]
          have hrec := matchChunkF_literal_failed sRest f h5 hflen
          simp [matchChunkF, h2, h3, h4, hbe, hrec, List.isPrefixOf_cons₂]

theorem isPrefixOf_append_drop :
    ∀ {p n : GoStr}, p.isPrefixOf n = true → p ++ n.drop p.length = n := by
  intro p
  induction p with
  | nil => intro n _; simp
  | cons c rest ih =>
    intro n h
    cases n with
    | nil => simp [List.isPrefixOf] at h
    | cons b bs =>
      rw [List.isPrefixOf_cons₂, Bool.and_eq_true, beq_iff_eq] at h
      obtain ⟨hcb, hp⟩ := h
      subst hcb
      simp [ih hp]

theorem isPrefixOf_self : ∀ (l : GoStr), l.isPrefixOf l = true := by
  intro l
  induction l with
  | nil => rfl
  | cons c rest ih => simp [List.isPrefixOf_cons₂, ih]

theorem goMatch_literal {p n : GoStr} (h : isLiteral p = true) :
    goMatch p n = .ok (decide (n = p)) := by
  cases p with
  | nil =>
    cases n with
    | nil => rfl
    | cons b bs =>
      show goMatchF 1 [] (b :: bs) = .ok (decide (b :: bs = []))
      simp [goMatchF]
  | cons c rest0 =>
    have hfuel : (c :: rest0).length < (c :: rest0).length + 1 := Nat.lt_succ_self _
    have hchunk := @matchChunkF_literal (c :: rest0) n ((c :: rest0).length + 1) h hfuel
    show goMatchF (Nat.succ ((c :: rest0).length)) (c :: rest0) n = .ok (decide (n = c :: rest0))
    rw [goMatchF]
    simp only [scanChunk_literal h, matchChunkRun]
    rw [hchunk]
    by_cases hpre : (c :: rest0).isPrefixOf n = true
    · rw [if_pos hpre]
      by_cases hdrop : n.drop (c :: rest0).length = []
      · have hn : n = c :: rest0 := by
          have hap := isPrefixOf_append_drop hpre
          rw [hdrop, List.append_nil] at hap
          exact hap.symm
        subst hn
        simp [goMatchF, List.drop_length]
      · have hn : n ≠ c :: rest0 := by
          intro he
          rw [he] at hdrop
          exact hdrop (List.drop_length _)
        simp [hdrop, hn, validRest, validRestF]
        intro hlen
        exact absurd (List.drop_eq_nil_of_le hlen) hdrop
    · rw [if_neg hpre]
      have hn : n ≠ c :: rest0 := by
        intro he
        rw [he] at hpre
        exact hpre (isPrefixOf_self _)
      simp [hn, validRest, validRestF]

/-- C7 counterexample: the pattern `[a]` contains neither `*` nor `?`, yet
it matches the name `a`, which is not byte-identical to the pattern —
character classes make a wildcard-free pattern behave unlike an exact-match
entry, so the claim fails as stated. -/
theorem c7_counterexample :
    ('*' ∉ "[a]".toList ∧ '?' ∉ "[a]".toList)
    ∧ matchPattern "[a]".toList "a".toList = true
    ∧ "a".toList ≠ "[a]".toList :=
  ⟨by decide, by decide, by decide⟩

/-- C7 amended: glob matching is anchored over the whole name, and a
pattern containing none of `*`, `?`, `[`, `\` behaves identically to an
exact-match entry: it matches precisely the byte-identical name.  (The
claim's wildcard-free condition must also exclude the class opener and the
escape, which the glob engine treats specially.) -/
theorem c7_literal_anchored (p n : GoStr) (h : isLiteral p = true) :
    matchPattern p n = decide (n = p) := by
  simp [matchPattern, goMatch_literal h]

theorem c7_witness :
    matchPattern "users".toList "users".toList = true
    ∧ matchPattern "user".toList "users".toList = false
    ∧ matchPattern "sers".toList "users".toList = false := by
  refine ⟨?_, ?_, ?_⟩
  · rw [c7_literal_anchored "users".toList "users".toList (by decide)]; decide
  · rw [c7_literal_anchored "user".toList "users".toList (by decide)]; decide
  · rw [c7_literal_anchored "sers".toList "users".toList (by decide)]; decide

/-- C9: whenever the glob engine rejects the pattern as syntactically
invalid, `matchPattern` equals the substring-containment test of the name
against the pattern with its leading and trailing `*` characters removed;
the function is total, so matching yields an answer for well-formed and
malformed patterns alike. -/
theorem c9_invalid_fallback (p n : GoStr) (h : goMatch p n = .error ()) :
    matchPattern p n = containsSub n (trimStar p) := by
  simp [matchPattern, h]

theorem c9_witness :
    matchPattern "[z".toList "a[zb".toList = containsSub "a[zb".toList (trimStar "[z".toList)
    ∧ containsSub "a[zb".toList (trimStar "[z".toList) = true :=
  ⟨c9_invalid_fallback "[z".toList "a[zb".toList rfl, by decide⟩
